import Mathlib

/-!
Verification development for the PQG (Property Graph in DuckDB) core:
identity translation (pid ↔ row_id), edge store with referential
integrity, decomposition of composite objects, pattern-matched edge
queries, root finding (reverse reachability) and breadth-first traversal.

The shared single-table relation is embedded as a list of rows together
with the `row_id_sequence` counter.  SQL behaviour (UNIQUE pid, row_id
DEFAULT nextval, find/insert/update) is made explicit as list operations.
-/

/-- Reserved otype tag marking an edge row ("_edge_"). -/
def edgeOtype : String := "_edge_"

/-- One row of the shared relation `node`.  Columns `row_id` (INTEGER
PRIMARY KEY DEFAULT nextval('row_id_sequence')), `pid` (VARCHAR UNIQUE NOT
NULL: the String type makes null impossible), `otype`, and the edge
columns `s` (INTEGER), `p` (VARCHAR), `o` (INTEGER[]), `n` (VARCHAR).
Timestamp, label, description, altids and per-type extension columns are
value-carrying only and play no part in the verified properties, so they
are omitted from the embedding. -/
structure Row where
  row_id : Nat
  pid : String
  otype : String
  s : Option Nat
  p : Option String
  o : List Nat
  n : Option String
deriving DecidableEq, Repr

/-- The store state: the rows of the shared relation plus the value of
`row_id_sequence` (the next row_id to be handed out). -/
structure PQG where
  rows : List Row
  nextRowId : Nat
deriving DecidableEq, Repr

/-- `pidToRowId(pid)`: first row whose pid matches, mapped to its row_id;
`none` is the missing sentinel. -/
def pidToRowId (g : PQG) (pid : String) : Option Nat :=
  (g.rows.find? (fun r => decide (r.pid = pid))).map Row.row_id

/-- `rowIdToPid(row_id)`: first row whose row_id matches, mapped to its
pid; `none` is the missing sentinel. -/
def rowIdToPid (g : PQG) (i : Nat) : Option String :=
  (g.rows.find? (fun r => decide (r.row_id = i))).map Row.pid

/-- Modelled from the spec: the content-derived edge PID.  The source's
hash function is not in the repository snapshot; the spec fixes only that
the PID is one deterministic function of the canonical serialization of
(subject, predicate, ordered object set, named graph), so the hash is
replaced by an explicit canonical serialization. -/
def edgePid (spid p : String) (opids : List String) (n : Option String) : String :=
  "edge_" ++ spid ++ "|" ++ p ++ "|" ++ String.intercalate "," opids ++ "|" ++ n.getD ""

/-- Build the stored edge row for resolved content, given the row_id to
use. -/
def mkEdgeRow (ep : String) (si : Nat) (p : String) (ois : List Nat)
    (n : Option String) (i : Nat) : Row :=
  ⟨i, ep, edgeOtype, some si, some p, ois, n⟩

/-- Modelled from the spec: write one row keyed by pid.  If a row with
this pid exists it is replaced in place (upsert: row_id preserved),
otherwise a fresh row is appended with row_id = nextval of the
sequence. -/
def upsertRow (g : PQG) (pid : String) (mk : Nat → Row) : PQG :=
  match g.rows.find? (fun r => decide (r.pid = pid)) with
  | some r => ⟨g.rows.map (fun q => if q.pid = pid then mk r.row_id else q), g.nextRowId⟩
  | none => ⟨g.rows ++ [mk g.nextRowId], g.nextRowId + 1⟩

/-- Resolve every object pid to a row_id; the first failure aborts with
the "Object PID not found" error (as in the addEdge source excerpt). -/
def resolveObjects (g : PQG) : List String → Except String (List Nat)
  | [] => .ok []
  | opid :: rest =>
    match pidToRowId g opid with
    | none => .error ("Object PID not found: " ++ opid)
    | some i =>
      match resolveObjects g rest with
      | .error e => .error e
      | .ok is => .ok (i :: is)

/-- `addEdge`: resolve the subject pid, then every object pid; any
failure raises ReferentialIntegrityError (modelled as `.error`) before
anything is written; on success the edge row is upserted under its
content-derived pid.  The resolution steps follow the addEdge source
excerpt; the write is modelled from the spec (all-or-nothing upsert). -/
def addEdge (g : PQG) (spid p : String) (opids : List String) (n : Option String) :
    Except String PQG :=
  match pidToRowId g spid with
  | none => .error ("Subject PID not found: " ++ spid)
  | some si =>
    match resolveObjects g opids with
    | .error e => .error e
    | .ok ois => .ok (upsertRow g (edgePid spid p opids n) (mkEdgeRow (edgePid spid p opids n) si p ois n))

/-- Run `addEdge`, keeping the old state when the call fails (a failed
call writes nothing). -/
def tryAddEdge (g : PQG) (spid p : String) (opids : List String) (n : Option String) : PQG :=
  match addEdge g spid p opids n with
  | .ok g' => g'
  | .error _ => g

/-- `objectCounts()`: grouped row counts by otype. -/
def objectCounts (g : PQG) : List (String × Nat) :=
  ((g.rows.map Row.otype).dedup).map (fun t => (t, g.rows.countP (fun r => decide (r.otype = t))))

/-- `predicateCounts()`: grouped edge counts by predicate. -/
def predicateCounts (g : PQG) : List (String × Nat) :=
  ((g.rows.filterMap Row.p).dedup).map (fun t => (t, g.rows.countP (fun r => decide (r.p = some t))))

/-- Does an optional filter accept the value (no filter accepts
everything)? -/
def matchesF (f : Option String) (v : String) : Bool :=
  match f with
  | none => true
  | some x => decide (x = v)

/-- Fan one edge row out into (subjectPid, predicate, objectPid) triples,
translating stored row ids back to pids; one triple per element of `o`. -/
def edgeTriples (g : PQG) (r : Row) : List (String × String × String) :=
  if r.otype = edgeOtype then
    match r.s, r.p with
    | some si, some pv =>
      match rowIdToPid g si with
      | some spid => r.o.filterMap (fun oi => (rowIdToPid g oi).map (fun opid => (spid, pv, opid)))
      | none => []
    | _, _ => []
  else []

/-- `getRelations(subject?, predicate?, object?)`: pattern-matched edge
query; an edge with k objects fans out into k triples. -/
def getRelations (g : PQG) (subj pred obj : Option String) : List (String × String × String) :=
  g.rows.flatMap (fun r =>
    (edgeTriples g r).filter (fun t => matchesF subj t.1 && matchesF pred t.2.1 && matchesF obj t.2.2))

/-- Rows matching the otype filter of `getIds`, as (pid, otype) pairs. -/
def matchingIds (g : PQG) (otype : Option String) : List (String × String) :=
  (g.rows.filter (fun r => matchesF otype r.otype)).map (fun r => (r.pid, r.otype))

/-- `getIds(otype?, maxrows)`: at most maxrows (pid, otype) pairs. -/
def getIds (g : PQG) (otype : Option String) (maxrows : Nat) : List (String × String) :=
  (matchingIds g otype).take maxrows

/-- The default of getIds' maxrows parameter (`getIds(otype=None,
maxrows=100)`). -/
def defaultMaxrows : Nat := 100

/-- `getIds` as called with the defaulted maxrows argument. -/
def getIdsDefault (g : PQG) (otype : Option String) : List (String × String) :=
  getIds g otype defaultMaxrows

/-- All row ids a row refers to: its subject (if set) and its objects. -/
def rowRefs (r : Row) : List Nat :=
  (match r.s with | none => [] | some i => [i]) ++ r.o

/-- Store invariant: pids unique (non-null by type), row_ids unique, all
row_ids below the sequence value (so fresh ids are new: monotone, never
reused), and every stored reference below the sequence value. -/
def Invariant (g : PQG) : Prop :=
  (g.rows.map Row.pid).Nodup ∧ (g.rows.map Row.row_id).Nodup ∧
  (∀ r ∈ g.rows, r.row_id < g.nextRowId) ∧
  ∀ r ∈ g.rows, ∀ i ∈ rowRefs r, i < g.nextRowId

instance (g : PQG) : Decidable (Invariant g) := by
  unfold Invariant
  infer_instance

deriving instance DecidableEq for Except

/-- A successful `find?` returns a member satisfying the predicate. -/
theorem find_spec {α : Type} {p : α → Bool} {l : List α} {a : α}
    (h : l.find? p = some a) : a ∈ l ∧ p a = true :=
  ⟨List.mem_of_find?_eq_some h, List.find?_some h⟩

/-- A member satisfying the predicate makes `find?` succeed. -/
theorem find_exists_of_mem {α : Type} {p : α → Bool} {l : List α} {a : α}
    (ha : a ∈ l) (hp : p a = true) : ∃ b, l.find? p = some b :=
  Option.isSome_iff_exists.mp (List.find?_isSome.mpr ⟨a, ha, hp⟩)

/-- A list whose image is duplicate-free has an injective projection. -/
theorem nodup_map_inj {α β : Type} {f : α → β} {l : List α} (h : (l.map f).Nodup)
    {a b : α} (ha : a ∈ l) (hb : b ∈ l) (hfab : f a = f b) : a = b := by
  induction l with
  | nil => simp at ha
  | cons x xs ih =>
    rw [List.map_cons, List.nodup_cons] at h
    rcases List.mem_cons.mp ha with rfl | ha'
    · rcases List.mem_cons.mp hb with rfl | hb'
      · rfl
      · exact absurd (hfab ▸ List.mem_map_of_mem f hb') h.1
    · rcases List.mem_cons.mp hb with rfl | hb'
      · exact absurd (hfab ▸ List.mem_map_of_mem f ha') h.1
      · exact ih h.2 ha' hb'

/-- Under the invariant, a stored row's pid resolves to that row's
row_id. -/
theorem pidToRowId_of_mem {g : PQG} (hinv : Invariant g) {r : Row} (hr : r ∈ g.rows) :
    pidToRowId g r.pid = some r.row_id := by
  obtain ⟨b, hb⟩ := find_exists_of_mem (p := fun q => decide (q.pid = r.pid)) hr (by simp)
  obtain ⟨hmem, hpb⟩ := find_spec hb
  have : b = r := nodup_map_inj hinv.1 hmem hr (of_decide_eq_true hpb)
  simp [pidToRowId, hb, this]

/-- Under the invariant, a stored row's row_id resolves to that row's
pid. -/
theorem rowIdToPid_of_mem {g : PQG} (hinv : Invariant g) {r : Row} (hr : r ∈ g.rows) :
    rowIdToPid g r.row_id = some r.pid := by
  obtain ⟨b, hb⟩ := find_exists_of_mem (p := fun q => decide (q.row_id = r.row_id)) hr (by simp)
  obtain ⟨hmem, hpb⟩ := find_spec hb
  have : b = r := nodup_map_inj hinv.2.1 hmem hr (of_decide_eq_true hpb)
  simp [rowIdToPid, hb, this]

/-- A successful pid resolution names a stored row. -/
theorem pidToRowId_inv {g : PQG} {p : String} {i : Nat} (h : pidToRowId g p = some i) :
    ∃ r ∈ g.rows, r.pid = p ∧ r.row_id = i := by
  unfold pidToRowId at h
  cases hf : g.rows.find? (fun q => decide (q.pid = p)) with
  | none => rw [hf] at h; simp at h
  | some b =>
    rw [hf] at h
    obtain ⟨hmem, hpb⟩ := find_spec hf
    exact ⟨b, hmem, of_decide_eq_true hpb, by simpa using h⟩

/-- A successful row_id resolution names a stored row. -/
theorem rowIdToPid_inv {g : PQG} {i : Nat} {p : String} (h : rowIdToPid g i = some p) :
    ∃ r ∈ g.rows, r.pid = p ∧ r.row_id = i := by
  unfold rowIdToPid at h
  cases hf : g.rows.find? (fun q => decide (q.row_id = i)) with
  | none => rw [hf] at h; simp at h
  | some b =>
    rw [hf] at h
    obtain ⟨hmem, hpb⟩ := find_spec hf
    exact ⟨b, hmem, by simpa using h, of_decide_eq_true hpb⟩

/-- C2: for every existing row the pid↔row_id translation round-trips in
both directions: the mapping is a total bijection over stored rows. -/
theorem pid_rowid_bijection (g : PQG) (hinv : Invariant g) :
    (∀ i p, rowIdToPid g i = some p → pidToRowId g p = some i) ∧
    (∀ p i, pidToRowId g p = some i → rowIdToPid g i = some p) ∧
    (∀ r ∈ g.rows, pidToRowId g r.pid = some r.row_id ∧ rowIdToPid g r.row_id = some r.pid) := by
  refine ⟨?_, ?_, fun r hr => ⟨pidToRowId_of_mem hinv hr, rowIdToPid_of_mem hinv hr⟩⟩
  · intro i p h
    obtain ⟨r, hr, hpid, hid⟩ := rowIdToPid_inv h
    rw [← hpid, ← hid]
    exact pidToRowId_of_mem hinv hr
  · intro p i h
    obtain ⟨r, hr, hpid, hid⟩ := pidToRowId_inv h
    rw [← hpid, ← hid]
    exact rowIdToPid_of_mem hinv hr

/-- Store used to instantiate the pid↔row_id bijection theorem. -/
def gC2 : PQG :=
  ⟨[⟨1, "a", "Person", none, none, [], none⟩, ⟨2, "b", "Person", none, none, [], none⟩], 3⟩

/-- Witness: the bijection theorem applied at a concrete two-row store. -/
theorem pid_rowid_bijection_witness :
    (∀ i p, rowIdToPid gC2 i = some p → pidToRowId gC2 p = some i) ∧
    (∀ p i, pidToRowId gC2 p = some i → rowIdToPid gC2 i = some p) ∧
    (∀ r ∈ gC2.rows, pidToRowId gC2 r.pid = some r.row_id ∧ rowIdToPid gC2 r.row_id = some r.pid) :=
  pid_rowid_bijection gC2 (by decide)

/-- An unresolvable object pid makes object resolution fail. -/
theorem resolveObjects_error {g : PQG} {opids : List String}
    (h : ∃ op ∈ opids, pidToRowId g op = none) :
    ∃ msg, resolveObjects g opids = Except.error msg := by
  induction opids with
  | nil => simp at h
  | cons x rest ih =>
    unfold resolveObjects
    cases hx : pidToRowId g x with
    | none => exact ⟨_, rfl⟩
    | some i =>
      obtain ⟨op, hop, hnone⟩ := h
      rcases List.mem_cons.mp hop with rfl | hop'
      · rw [hx] at hnone; cases hnone
      · obtain ⟨msg, hmsg⟩ := ih ⟨op, hop', hnone⟩
        rw [hmsg]
        exact ⟨msg, rfl⟩

/-- C1: an `addEdge` call in which the subject pid or any object pid does
not resolve fails with the referential-integrity error, the store is
unchanged, and `objectCounts` is unchanged. -/
theorem addEdge_unresolved_fails (g : PQG) (spid p : String) (opids : List String)
    (n : Option String)
    (h : pidToRowId g spid = none ∨ ∃ op ∈ opids, pidToRowId g op = none) :
    (∃ msg, addEdge g spid p opids n = Except.error msg) ∧
    tryAddEdge g spid p opids n = g ∧
    objectCounts (tryAddEdge g spid p opids n) = objectCounts g := by
  have herr : ∃ msg, addEdge g spid p opids n = Except.error msg := by
    unfold addEdge
    cases hs : pidToRowId g spid with
    | none => exact ⟨_, rfl⟩
    | some si =>
      rcases h with hs' | ho
      · rw [hs] at hs'; cases hs'
      · obtain ⟨msg, hmsg⟩ := resolveObjects_error ho
        rw [hmsg]
        exact ⟨msg, rfl⟩
  obtain ⟨msg, hmsg⟩ := herr
  have hstate : tryAddEdge g spid p opids n = g := by
    unfold tryAddEdge
    rw [hmsg]
  exact ⟨⟨msg, hmsg⟩, hstate, by rw [hstate]⟩

/-- Store used to instantiate the failing-addEdge theorem. -/
def gC1 : PQG := ⟨[⟨1, "a", "Person", none, none, [], none⟩], 2⟩

/-- Witness: `addEdge` to the missing pid fails and changes nothing on a
concrete one-node store. -/
theorem addEdge_unresolved_fails_witness :
    (∃ msg, addEdge gC1 "a" "knows" ["missing"] none = Except.error msg) ∧
    tryAddEdge gC1 "a" "knows" ["missing"] none = gC1 ∧
    objectCounts (tryAddEdge gC1 "a" "knows" ["missing"] none) = objectCounts gC1 :=
  addEdge_unresolved_fails gC1 "a" "knows" ["missing"] none (by decide)

/-- C10: called with the defaulted maxrows argument, `getIds` returns
min(matching, 100) results — silently truncating enumerations of more
than 100 matching rows — while an explicit maxrows equal to the matching
count returns every identifier. -/
theorem getIds_default_truncates (g : PQG) (t : Option String) :
    getIdsDefault g t = getIds g t 100 ∧
    (getIdsDefault g t).length = min 100 (matchingIds g t).length ∧
    getIds g t (matchingIds g t).length = matchingIds g t := by
  refine ⟨rfl, ?_, ?_⟩
  · simp [getIdsDefault, getIds, defaultMaxrows]
  · simp [getIds]

/-- Replacing the row keyed by `u` does not change any row's pid. -/
theorem replace_pid_eq {u : String} {e : Row} (he : e.pid = u) (q : Row) :
    (if q.pid = u then e else q).pid = q.pid := by
  by_cases hq : q.pid = u
  · simp [hq, he]
  · simp [hq]

/-- `upsertRow` equation for the insert branch (pid not present). -/
theorem upsertRow_insert {g : PQG} {u : String} {mk : Nat → Row}
    (hfu : g.rows.find? (fun q => decide (q.pid = u)) = none) :
    upsertRow g u mk = ⟨g.rows ++ [mk g.nextRowId], g.nextRowId + 1⟩ := by
  unfold upsertRow
  rw [hfu]

/-- `upsertRow` equation for the update branch (pid present: the found
row's content is replaced in place, its row_id preserved). -/
theorem upsertRow_update {g : PQG} {u : String} {mk : Nat → Row} {r : Row}
    (hfu : g.rows.find? (fun q => decide (q.pid = u)) = some r) :
    upsertRow g u mk =
      ⟨g.rows.map (fun q => if q.pid = u then mk r.row_id else q), g.nextRowId⟩ := by
  unfold upsertRow
  rw [hfu]

/-- An upsert leaves every previously resolvable pid resolving to the
same row_id (row ids are immutable once assigned). -/
theorem pidToRowId_upsert {g : PQG} (u : String) (mk : Nat → Row)
    (hmk_pid : ∀ i, (mk i).pid = u) (hmk_id : ∀ i, (mk i).row_id = i)
    {p : String} {i : Nat} (h : pidToRowId g p = some i) :
    pidToRowId (upsertRow g u mk) p = some i := by
  unfold pidToRowId at h
  cases hf : g.rows.find? (fun q => decide (q.pid = p)) with
  | none => rw [hf] at h; cases h
  | some b =>
    rw [hf] at h
    cases hfu : g.rows.find? (fun q => decide (q.pid = u)) with
    | none =>
      rw [upsertRow_insert hfu]
      unfold pidToRowId
      rw [List.find?_append, hf]
      exact h
    | some r =>
      rw [upsertRow_update hfu]
      unfold pidToRowId
      have hfun : ((fun q : Row => decide (q.pid = p)) ∘ fun q => if q.pid = u then mk r.row_id else q)
          = fun q : Row => decide (q.pid = p) := by
        funext q
        simp only [Function.comp_apply]
        rw [replace_pid_eq (hmk_pid r.row_id) q]
      rw [List.find?_map, hfun, hf]
      simp only [Option.map_some']
      by_cases hbu : b.pid = u
      · have hbp : b.pid = p := of_decide_eq_true (find_spec hf).2
        have hpu : p = u := hbp ▸ hbu
        have hbr : r = b := by
          have hfb : g.rows.find? (fun q => decide (q.pid = u)) = some b := by
            rw [← hpu]
            exact hf
          rw [hfu] at hfb
          injection hfb
        rw [if_pos hbu, hmk_id, hbr]
        exact h
      · rw [if_neg hbu]
        exact h

/-- `upsertRow` leaves the sequence value at least as large. -/
theorem upsert_nextRowId_ge (g : PQG) (u : String) (mk : Nat → Row) :
    g.nextRowId ≤ (upsertRow g u mk).nextRowId := by
  cases hfu : g.rows.find? (fun q => decide (q.pid = u)) with
  | none => rw [upsertRow_insert hfu]; exact Nat.le_succ _
  | some r => rw [upsertRow_update hfu]

/-- `upsertRow` preserves the store invariant whenever the written row
carries the requested pid, the row_id it is given, and only references
below the sequence value. -/
theorem upsert_invariant {g : PQG} (hinv : Invariant g) (u : String) (mk : Nat → Row)
    (hmk_id : ∀ i, (mk i).row_id = i) (hmk_pid : ∀ i, (mk i).pid = u)
    (hmk_refs : ∀ i j, j ∈ rowRefs (mk i) → j < g.nextRowId) :
    Invariant (upsertRow g u mk) := by
  obtain ⟨hp, hi, hlt, href⟩ := hinv
  cases hfu : g.rows.find? (fun q => decide (q.pid = u)) with
  | none =>
    rw [upsertRow_insert hfu]
    have hu_not : ∀ q ∈ g.rows, ¬q.pid = u := by
      intro q hq
      have := List.find?_eq_none.mp hfu q hq
      simpa using this
    refine ⟨?_, ?_, ?_, ?_⟩
    · rw [List.map_append, List.nodup_append]
      refine ⟨hp, by simp, ?_⟩
      intro x hx hx2
      obtain ⟨q, hq, rfl⟩ := List.mem_map.mp hx
      simp only [List.map_cons, List.map_nil, List.mem_singleton] at hx2
      rw [hmk_pid] at hx2
      exact hu_not q hq hx2
    · rw [List.map_append, List.nodup_append]
      refine ⟨hi, by simp, ?_⟩
      intro x hx hx2
      obtain ⟨q, hq, rfl⟩ := List.mem_map.mp hx
      simp only [List.map_cons, List.map_nil, List.mem_singleton] at hx2
      rw [hmk_id] at hx2
      have := hlt q hq
      omega
    · intro r hr
      rcases List.mem_append.mp hr with hr' | hr'
      · exact Nat.lt_succ_of_lt (hlt r hr')
      · rw [List.mem_singleton.mp hr', hmk_id]
        exact Nat.lt_succ_self _
    · intro r hr j hj
      rcases List.mem_append.mp hr with hr' | hr'
      · exact Nat.lt_succ_of_lt (href r hr' j hj)
      · have heq : r = mk g.nextRowId := List.mem_singleton.mp hr'
        exact Nat.lt_succ_of_lt (hmk_refs _ _ (heq ▸ hj))
  | some r =>
    rw [upsertRow_update hfu]
    obtain ⟨hrmem, hrpid⟩ := find_spec hfu
    have hrpid' : r.pid = u := of_decide_eq_true hrpid
    have hid_pt : ∀ q ∈ g.rows, (if q.pid = u then mk r.row_id else q).row_id = q.row_id := by
      intro q hq
      by_cases hqu : q.pid = u
      · have hqr : q = r := nodup_map_inj hp hq hrmem (by rw [hqu, hrpid'])
        rw [if_pos hqu, hmk_id, hqr]
      · rw [if_neg hqu]
    refine ⟨?_, ?_, ?_, ?_⟩
    · rw [List.map_map]
      have heq : g.rows.map (Row.pid ∘ fun q => if q.pid = u then mk r.row_id else q) =
          g.rows.map Row.pid :=
        List.map_congr_left (fun q _ => replace_pid_eq (hmk_pid r.row_id) q)
      rw [heq]
      exact hp
    · rw [List.map_map]
      have heq : g.rows.map (Row.row_id ∘ fun q => if q.pid = u then mk r.row_id else q) =
          g.rows.map Row.row_id :=
        List.map_congr_left (fun q hq => hid_pt q hq)
      rw [heq]
      exact hi
    · intro q' hq'
      obtain ⟨q, hq, rfl⟩ := List.mem_map.mp hq'
      rw [hid_pt q hq]
      exact hlt q hq
    · intro q' hq' j hj
      obtain ⟨q, hq, rfl⟩ := List.mem_map.mp hq'
      by_cases hqu : q.pid = u
      · rw [if_pos hqu] at hj
        exact hmk_refs _ _ hj
      · rw [if_neg hqu] at hj
        exact href q hq j hj

/-- The written row is present after an upsert. -/
theorem upsertRow_mem {g : PQG} (u : String) (mk : Nat → Row)
    (_hmk_pid : ∀ i, (mk i).pid = u) :
    ∃ i, mk i ∈ (upsertRow g u mk).rows := by
  cases hfu : g.rows.find? (fun q => decide (q.pid = u)) with
  | none =>
    rw [upsertRow_insert hfu]
    exact ⟨g.nextRowId, by simp⟩
  | some r =>
    rw [upsertRow_update hfu]
    obtain ⟨hrmem, hrpid⟩ := find_spec hfu
    have hrpid' : r.pid = u := of_decide_eq_true hrpid
    exact ⟨r.row_id, List.mem_map.mpr ⟨r, hrmem, by rw [if_pos hrpid']⟩⟩

/-- Upserting content identical to the stored row keyed by the pid is a
no-op. -/
theorem upsertRow_self {g : PQG} (hnd : (g.rows.map Row.pid).Nodup) {u : String}
    {mk : Nat → Row} {b : Row}
    (hfind : g.rows.find? (fun q => decide (q.pid = u)) = some b)
    (hb : mk b.row_id = b) : upsertRow g u mk = g := by
  rw [upsertRow_update hfind]
  obtain ⟨hbmem, hbpid⟩ := find_spec hfind
  have hbu : b.pid = u := of_decide_eq_true hbpid
  have hmap : g.rows.map (fun q => if q.pid = u then mk b.row_id else q) = g.rows := by
    have hpt : ∀ q ∈ g.rows, (if q.pid = u then mk b.row_id else q) = id q := by
      intro q hq
      by_cases hqu : q.pid = u
      · have hqb : q = b := nodup_map_inj hnd hq hbmem (by rw [hqu, hbu])
        rw [if_pos hqu, hb, hqb]
        rfl
      · rw [if_neg hqu]
        rfl
    rw [List.map_congr_left hpt, List.map_id]
  rw [hmap]

/-- `resolveObjects` equation: unresolved head. -/
theorem resolveObjects_cons_none {g : PQG} {x : String} {rest : List String}
    (hx : pidToRowId g x = none) :
    resolveObjects g (x :: rest) = Except.error ("Object PID not found: " ++ x) := by
  unfold resolveObjects
  rw [hx]

/-- `resolveObjects` equation: resolved head, failing tail. -/
theorem resolveObjects_cons_err {g : PQG} {x : String} {rest : List String} {i : Nat}
    {e : String} (hx : pidToRowId g x = some i)
    (hr : resolveObjects g rest = Except.error e) :
    resolveObjects g (x :: rest) = Except.error e := by
  unfold resolveObjects
  rw [hx, hr]

/-- `resolveObjects` equation: resolved head and tail. -/
theorem resolveObjects_cons_ok {g : PQG} {x : String} {rest : List String} {i : Nat}
    {is : List Nat} (hx : pidToRowId g x = some i)
    (hr : resolveObjects g rest = Except.ok is) :
    resolveObjects g (x :: rest) = Except.ok (i :: is) := by
  unfold resolveObjects
  rw [hx, hr]

/-- A successful object resolution resolves the pids pointwise. -/
theorem resolveObjects_spec {g : PQG} :
    ∀ {opids : List String} {ois : List Nat}, resolveObjects g opids = Except.ok ois →
      List.Forall₂ (fun op i => pidToRowId g op = some i) opids ois := by
  intro opids
  induction opids with
  | nil =>
    intro ois h
    unfold resolveObjects at h
    injection h with h'
    rw [← h']
    exact List.Forall₂.nil
  | cons x rest ih =>
    intro ois h
    cases hx : pidToRowId g x with
    | none => rw [resolveObjects_cons_none hx] at h; simp at h
    | some i =>
      cases hrest : resolveObjects g rest with
      | error e => rw [resolveObjects_cons_err hx hrest] at h; simp at h
      | ok is =>
        rw [resolveObjects_cons_ok hx hrest] at h
        injection h with h'
        rw [← h']
        exact List.Forall₂.cons hx (ih hrest)

/-- Every right element of a `Forall₂` is related to some left element. -/
theorem forall2_mem_right {α β : Type} {R : α → β → Prop} {l₁ : List α} {l₂ : List β}
    (h : List.Forall₂ R l₁ l₂) : ∀ b ∈ l₂, ∃ a ∈ l₁, R a b := by
  induction h with
  | nil => intro b hb; simp at hb
  | cons hR hrest ih =>
    intro b hb
    rcases List.mem_cons.mp hb with rfl | hb'
    · exact ⟨_, List.mem_cons_self _ _, hR⟩
    · obtain ⟨a, ha, hRa⟩ := ih b hb'
      exact ⟨a, List.mem_cons_of_mem _ ha, hRa⟩

/-- Object resolution only depends on the resolvable pids, so it is
stable under any state change that preserves resolutions. -/
theorem resolveObjects_stable {g g' : PQG}
    (hpres : ∀ q i, pidToRowId g q = some i → pidToRowId g' q = some i) :
    ∀ {opids : List String} {ois : List Nat},
      resolveObjects g opids = Except.ok ois → resolveObjects g' opids = Except.ok ois := by
  intro opids
  induction opids with
  | nil => intro ois h; exact h
  | cons x rest ih =>
    intro ois h
    cases hx : pidToRowId g x with
    | none => rw [resolveObjects_cons_none hx] at h; simp at h
    | some i =>
      cases hrest : resolveObjects g rest with
      | error e => rw [resolveObjects_cons_err hx hrest] at h; simp at h
      | ok is =>
        rw [resolveObjects_cons_ok hx hrest] at h
        injection h with h'
        rw [← h']
        exact resolveObjects_cons_ok (hpres x i hx) (ih hrest)

/-- `addEdge` success equation. -/
theorem addEdge_ok_eq {g : PQG} {spid p : String} {opids : List String} {n : Option String}
    {si : Nat} {ois : List Nat} (hs : pidToRowId g spid = some si)
    (ho : resolveObjects g opids = Except.ok ois) :
    addEdge g spid p opids n =
      Except.ok (upsertRow g (edgePid spid p opids n) (mkEdgeRow (edgePid spid p opids n) si p ois n)) := by
  unfold addEdge
  rw [hs, ho]

/-- Inversion of a successful `addEdge`. -/
theorem addEdge_ok_cases {g : PQG} {spid p : String} {opids : List String} {n : Option String}
    {g' : PQG} (h : addEdge g spid p opids n = Except.ok g') :
    ∃ si ois, pidToRowId g spid = some si ∧ resolveObjects g opids = Except.ok ois ∧
      g' = upsertRow g (edgePid spid p opids n) (mkEdgeRow (edgePid spid p opids n) si p ois n) := by
  unfold addEdge at h
  cases hs : pidToRowId g spid with
  | none => rw [hs] at h; simp at h
  | some si =>
    rw [hs] at h
    cases ho : resolveObjects g opids with
    | error e => rw [ho] at h; simp at h
    | ok ois =>
      rw [ho] at h
      injection h with h'
      exact ⟨si, ois, rfl, rfl, h'.symm⟩

/-- A successful `addEdge` keeps every existing pid resolving to its
original row_id. -/
theorem addEdge_pres_pid {g g' : PQG} {spid p : String} {opids : List String}
    {n : Option String} (h : addEdge g spid p opids n = Except.ok g') :
    ∀ q i, pidToRowId g q = some i → pidToRowId g' q = some i := by
  obtain ⟨si, ois, hs, ho, rfl⟩ := addEdge_ok_cases h
  exact fun q i hq =>
    pidToRowId_upsert (edgePid spid p opids n) (mkEdgeRow (edgePid spid p opids n) si p ois n)
      (fun _ => rfl) (fun _ => rfl) hq

/-- A successful `addEdge` preserves the store invariant, keeps existing
resolutions, and never decreases the sequence value. -/
theorem addEdge_preserves {g : PQG} (hinv : Invariant g) {spid p : String}
    {opids : List String} {n : Option String} {g' : PQG}
    (h : addEdge g spid p opids n = Except.ok g') :
    Invariant g' ∧ (∀ q i, pidToRowId g q = some i → pidToRowId g' q = some i) ∧
      g.nextRowId ≤ g'.nextRowId := by
  obtain ⟨si, ois, hs, ho, rfl⟩ := addEdge_ok_cases h
  have hsi_lt : si < g.nextRowId := by
    obtain ⟨r, hr, _, hrid⟩ := pidToRowId_inv hs
    rw [← hrid]
    exact hinv.2.2.1 r hr
  have hois_lt : ∀ j ∈ ois, j < g.nextRowId := by
    intro j hj
    obtain ⟨op, _, hop⟩ := forall2_mem_right (resolveObjects_spec ho) j hj
    obtain ⟨r, hr, _, hrid⟩ := pidToRowId_inv hop
    rw [← hrid]
    exact hinv.2.2.1 r hr
  have hmk_refs : ∀ i j, j ∈ rowRefs (mkEdgeRow (edgePid spid p opids n) si p ois n i) →
      j < g.nextRowId := by
    intro i j hj
    simp only [rowRefs, mkEdgeRow, List.mem_append, List.mem_singleton] at hj
    rcases hj with rfl | hj'
    · exact hsi_lt
    · exact hois_lt j hj'
  exact ⟨upsert_invariant hinv (edgePid spid p opids n)
      (mkEdgeRow (edgePid spid p opids n) si p ois n) (fun _ => rfl) (fun _ => rfl) hmk_refs,
    fun q i hq =>
      pidToRowId_upsert (edgePid spid p opids n) (mkEdgeRow (edgePid spid p opids n) si p ois n)
        (fun _ => rfl) (fun _ => rfl) hq,
    upsert_nextRowId_ge _ _ _⟩

/-- Modelled from the spec: the auto-generated anonymous pid
("anon_a1b2c3d4" in the user guide).  The random hex source is not in the
repository snapshot and is replaced by the hex digits of the current
sequence value — all the verified properties need is the "anon_" shape
and that the result is a concrete non-null string. -/
def genPid (seed : Nat) : String :=
  "anon_" ++ String.mk (Nat.toDigits 16 seed)

/-- The node row written by `addNode` for the scalar part of an object. -/
def mkNodeRow (pid otype : String) (i : Nat) : Row :=
  ⟨i, pid, otype, none, none, [], none⟩

/-- A composite input object as far as decomposition is concerned: an
optional pid, a type tag, and the reference fields — each a field name
together with the pids of the entities the field references.  Literal
scalar fields are value-carrying only and are omitted. -/
structure Obj where
  pid : Option String
  otype : String
  refFields : List (String × List String)
deriving DecidableEq, Repr

/-- The pid `addNode` stores the object under: the caller's pid when set,
otherwise a generated anonymous pid. -/
def assignedPid (g : PQG) (obj : Obj) : String :=
  match obj.pid with
  | some x => x
  | none => genPid g.nextRowId

/-- Synthesize one edge row per reference field (subject = the object's
pid, predicate = the field name, objects = the referenced pids),
propagating any referential-integrity failure. -/
def addEdges (spid : String) : PQG → List (String × List String) → Except String PQG
  | g, [] => .ok g
  | g, fr :: rest =>
    match addEdge g spid fr.1 fr.2 none with
    | .error e => .error e
    | .ok g' => addEdges spid g' rest

/-- Modelled from the spec: `addNode(object)` upserts one row for the
object itself (generating an anonymous pid when the object has none) and
then synthesizes one edge row per reference field, predicate equal to
the field name, whose object list has one element per referenced
entity. -/
def addNode (g : PQG) (obj : Obj) : Except String (PQG × String) :=
  match addEdges (assignedPid g obj)
      (upsertRow g (assignedPid g obj) (mkNodeRow (assignedPid g obj) obj.otype))
      obj.refFields with
  | .error e => .error e
  | .ok g2 => .ok (g2, assignedPid g obj)

/-- `addEdges` equation: failing head edge. -/
theorem addEdges_cons_err {spid : String} {g : PQG} {fr : String × List String}
    {rest : List (String × List String)} {e : String}
    (he : addEdge g spid fr.1 fr.2 none = Except.error e) :
    addEdges spid g (fr :: rest) = Except.error e := by
  unfold addEdges
  rw [he]

/-- `addEdges` equation: successful head edge. -/
theorem addEdges_cons_ok {spid : String} {g gm : PQG} {fr : String × List String}
    {rest : List (String × List String)}
    (he : addEdge g spid fr.1 fr.2 none = Except.ok gm) :
    addEdges spid g (fr :: rest) = addEdges spid gm rest := by
  conv_lhs => unfold addEdges
  rw [he]

/-- `addEdges` keeps every existing pid resolving to its original
row_id. -/
theorem addEdges_pres_pid {spid : String} :
    ∀ {frs : List (String × List String)} {g g' : PQG},
      addEdges spid g frs = Except.ok g' →
      ∀ q i, pidToRowId g q = some i → pidToRowId g' q = some i := by
  intro frs
  induction frs with
  | nil =>
    intro g g' h
    unfold addEdges at h
    injection h with h'
    rw [← h']
    exact fun q i hq => hq
  | cons fr rest ih =>
    intro g g' h
    cases he : addEdge g spid fr.1 fr.2 none with
    | error e => rw [addEdges_cons_err he] at h; simp at h
    | ok gm =>
      rw [addEdges_cons_ok he] at h
      exact fun q i hq => ih h q i (addEdge_pres_pid he q i hq)

/-- `addEdges` preserves the store invariant and never decreases the
sequence value. -/
theorem addEdges_preserves {spid : String} :
    ∀ {frs : List (String × List String)} {g g' : PQG}, Invariant g →
      addEdges spid g frs = Except.ok g' →
      Invariant g' ∧ g.nextRowId ≤ g'.nextRowId := by
  intro frs
  induction frs with
  | nil =>
    intro g g' hinv h
    unfold addEdges at h
    injection h with h'
    rw [← h']
    exact ⟨hinv, le_refl _⟩
  | cons fr rest ih =>
    intro g g' hinv h
    cases he : addEdge g spid fr.1 fr.2 none with
    | error e => rw [addEdges_cons_err he] at h; simp at h
    | ok gm =>
      rw [addEdges_cons_ok he] at h
      obtain ⟨hinvm, _, hle⟩ := addEdge_preserves hinv he
      obtain ⟨hinv', hle'⟩ := ih hinvm h
      exact ⟨hinv', le_trans hle hle'⟩

/-- Inversion of a successful `addNode`. -/
theorem addNode_ok_cases {g : PQG} {obj : Obj} {g' : PQG} {a : String}
    (h : addNode g obj = Except.ok (g', a)) :
    a = assignedPid g obj ∧
      addEdges (assignedPid g obj)
        (upsertRow g (assignedPid g obj) (mkNodeRow (assignedPid g obj) obj.otype))
        obj.refFields = Except.ok g' := by
  unfold addNode at h
  cases hae : addEdges (assignedPid g obj)
      (upsertRow g (assignedPid g obj) (mkNodeRow (assignedPid g obj) obj.otype))
      obj.refFields with
  | error e => rw [hae] at h; simp at h
  | ok g2 =>
    rw [hae] at h
    injection h with h'
    injection h' with h1 h2
    exact ⟨h2.symm, congrArg Except.ok h1⟩

/-- C7: every mutating operation on an invariant-satisfying store (a
successful `addNode` or `addEdge`; reads are pure functions of the state
and change nothing) yields a store in which pids are still unique and
non-null and row_ids still unique; every pre-existing pid still resolves
to its original row_id (row_ids are immutable once assigned); and the
row_id sequence value never decreases, so fresh row_ids are assigned
monotonically and never reused. -/
theorem store_invariant_preserved (g : PQG) (hinv : Invariant g) :
    (∀ spid p opids n g', addEdge g spid p opids n = Except.ok g' →
      Invariant g' ∧ (∀ q i, pidToRowId g q = some i → pidToRowId g' q = some i) ∧
        g.nextRowId ≤ g'.nextRowId) ∧
    (∀ obj g' a, addNode g obj = Except.ok (g', a) →
      Invariant g' ∧ (∀ q i, pidToRowId g q = some i → pidToRowId g' q = some i) ∧
        g.nextRowId ≤ g'.nextRowId) := by
  constructor
  · intro spid p opids n g' h
    exact addEdge_preserves hinv h
  · intro obj g' a h
    obtain ⟨-, hae⟩ := addNode_ok_cases h
    have hinv1 : Invariant (upsertRow g (assignedPid g obj)
        (mkNodeRow (assignedPid g obj) obj.otype)) := by
      refine upsert_invariant hinv (assignedPid g obj)
        (mkNodeRow (assignedPid g obj) obj.otype) (fun _ => rfl) (fun _ => rfl) ?_
      intro i j hj
      simp [rowRefs, mkNodeRow] at hj
    obtain ⟨hinv', hle'⟩ := addEdges_preserves hinv1 hae
    refine ⟨hinv', ?_, ?_⟩
    · intro q i hq
      refine addEdges_pres_pid hae q i ?_
      exact pidToRowId_upsert (assignedPid g obj) (mkNodeRow (assignedPid g obj) obj.otype)
        (fun _ => rfl) (fun _ => rfl) hq
    · exact le_trans (upsert_nextRowId_ge g (assignedPid g obj)
        (mkNodeRow (assignedPid g obj) obj.otype)) hle'

/-- Store used to instantiate the invariant-preservation theorem. -/
def gC7 : PQG :=
  ⟨[⟨1, "a", "Person", none, none, [], none⟩, ⟨2, "b", "Person", none, none, [], none⟩], 3⟩

/-- Witness: invariant preservation instantiated at a concrete two-row
store. -/
theorem store_invariant_preserved_witness :
    (∀ spid p opids n g', addEdge gC7 spid p opids n = Except.ok g' →
      Invariant g' ∧ (∀ q i, pidToRowId gC7 q = some i → pidToRowId g' q = some i) ∧
        gC7.nextRowId ≤ g'.nextRowId) ∧
    (∀ obj g' a, addNode gC7 obj = Except.ok (g', a) →
      Invariant g' ∧ (∀ q i, pidToRowId gC7 q = some i → pidToRowId g' q = some i) ∧
        gC7.nextRowId ≤ g'.nextRowId) :=
  store_invariant_preserved gC7 (by decide)

/-- C6: the edge pid is the fixed function `edgePid` of the logical
triple's content — the successfully stored edge row carries exactly
`edgePid subject predicate objects namedGraph` — and repeating the same
`addEdge` call on the resulting store succeeds and returns the store
unchanged: logically identical decomposition upserts the existing edge
row instead of creating a duplicate. -/
theorem edge_identity_idempotent (g : PQG) (spid p : String) (opids : List String)
    (n : Option String) (g' : PQG) (hinv : Invariant g)
    (h : addEdge g spid p opids n = Except.ok g') :
    (∃ r ∈ g'.rows, r.pid = edgePid spid p opids n) ∧
      addEdge g' spid p opids n = Except.ok g' := by
  have hpres := addEdge_preserves hinv h
  obtain ⟨si, ois, hs, ho, rfl⟩ := addEdge_ok_cases h
  obtain ⟨iw, hiw⟩ := upsertRow_mem (edgePid spid p opids n)
    (mkEdgeRow (edgePid spid p opids n) si p ois n) (fun _ => rfl)
  refine ⟨⟨mkEdgeRow (edgePid spid p opids n) si p ois n iw, hiw, rfl⟩, ?_⟩
  have hs' := pidToRowId_upsert (edgePid spid p opids n)
    (mkEdgeRow (edgePid spid p opids n) si p ois n) (fun _ => rfl) (fun _ => rfl) hs
  have ho' := resolveObjects_stable
    (fun q i hq => pidToRowId_upsert (edgePid spid p opids n)
      (mkEdgeRow (edgePid spid p opids n) si p ois n) (fun _ => rfl) (fun _ => rfl) hq) ho
  rw [addEdge_ok_eq hs' ho']
  obtain ⟨b, hbfind⟩ := find_exists_of_mem
    (p := fun q => decide (q.pid = edgePid spid p opids n)) hiw (by simp [mkEdgeRow])
  have hb_eq : b = mkEdgeRow (edgePid spid p opids n) si p ois n iw := by
    obtain ⟨hbmem, hbpid⟩ := find_spec hbfind
    refine nodup_map_inj hpres.1.1 hbmem hiw ?_
    rw [of_decide_eq_true hbpid]
    rfl
  rw [upsertRow_self hpres.1.1 hbfind (by rw [hb_eq]; rfl)]

/-- Store used to instantiate the edge-identity theorem. -/
def gC6 : PQG :=
  ⟨[⟨1, "a", "Person", none, none, [], none⟩, ⟨2, "b", "Person", none, none, [], none⟩], 3⟩

/-- The store after adding the a-knows-b edge to `gC6`. -/
def gC6' : PQG := tryAddEdge gC6 "a" "knows" ["b"] none

/-- Witness: edge identity and upsert idempotence at a concrete store. -/
theorem edge_identity_idempotent_witness :
    (∃ r ∈ gC6'.rows, r.pid = edgePid "a" "knows" ["b"] none) ∧
      addEdge gC6' "a" "knows" ["b"] none = Except.ok gC6' :=
  edge_identity_idempotent gC6 "a" "knows" ["b"] none gC6' (by decide) (by decide)

/-- C9: when the object's pid is unset, a successful `addNode` stores it
under the generated pid — a concrete non-null string of the form
"anon_..." — sets the returned pid field to it, and a row with that pid
exists in the store afterwards (no stored row has a null pid: the row
type's pid is a plain String). -/
theorem addNode_generates_pid (g : PQG) (obj : Obj) (g' : PQG) (a : String)
    (hpid : obj.pid = none) (h : addNode g obj = Except.ok (g', a)) :
    a = genPid g.nextRowId ∧ (∃ t, a = "anon_" ++ t) ∧ ∃ r ∈ g'.rows, r.pid = a := by
  obtain ⟨ha, hae⟩ := addNode_ok_cases h
  have hassigned : assignedPid g obj = genPid g.nextRowId := by
    unfold assignedPid
    rw [hpid]
  have ha' : a = genPid g.nextRowId := by rw [ha, hassigned]
  refine ⟨ha', ⟨String.mk (Nat.toDigits 16 g.nextRowId), by rw [ha']; rfl⟩, ?_⟩
  obtain ⟨iw, hiw⟩ := upsertRow_mem (assignedPid g obj)
    (mkNodeRow (assignedPid g obj) obj.otype) (fun _ => rfl)
  obtain ⟨b, hbfind⟩ := find_exists_of_mem
    (p := fun q => decide (q.pid = assignedPid g obj)) hiw (by simp [mkNodeRow])
  have h1 : pidToRowId (upsertRow g (assignedPid g obj)
      (mkNodeRow (assignedPid g obj) obj.otype)) (assignedPid g obj) = some b.row_id := by
    unfold pidToRowId
    rw [hbfind]
    rfl
  have h2 := addEdges_pres_pid hae _ _ h1
  obtain ⟨r, hr, hrpid, -⟩ := pidToRowId_inv h2
  exact ⟨r, hr, by rw [hrpid, ha]⟩

/-- Store used to instantiate the generated-pid theorem. -/
def gC9 : PQG := ⟨[], 1⟩

/-- Object with no pid used to instantiate the generated-pid theorem. -/
def oC9 : Obj := ⟨none, "Person", []⟩

/-- Store resulting from adding `oC9` to the empty store. -/
def gC9' : PQG := ⟨[⟨1, genPid 1, "Person", none, none, [], none⟩], 2⟩

/-- Witness: adding a pid-less object to the empty store generates
"anon_1" and stores the row under it. -/
theorem addNode_generates_pid_witness :
    genPid 1 = genPid gC9.nextRowId ∧ (∃ t, genPid 1 = "anon_" ++ t) ∧
      ∃ r ∈ gC9'.rows, r.pid = genPid 1 :=
  addNode_generates_pid gC9 oC9 gC9' (genPid 1) rfl (by decide)

/-- Semantic column types supported by the shared relation (string,
integer, double, boolean, timestamp, the sequence types and the
binary/geometry blob). -/
inductive FieldType where
  | varcharT
  | integerT
  | doubleT
  | booleanT
  | timestampT
  | varcharListT
  | integerListT
  | doubleListT
  | blobT
deriving DecidableEq, Repr

/-- A type descriptor: a type name with its ordered field declarations. -/
structure TypeDesc where
  name : String
  fields : List (String × FieldType)
deriving DecidableEq, Repr

/-- The reserved column names that no registered type may redeclare. -/
def reservedNames : List String :=
  ["row_id", "pid", "tcreated", "tmodified", "otype", "label", "description", "altids",
   "s", "p", "o", "n"]

/-- Merge one declared field into the accumulated shared schema:
reserved names are rejected, a redeclaration with an incompatible type is
rejected, a redeclaration with the same type is skipped. -/
def addField (acc : List (String × FieldType)) (f : String × FieldType) :
    Except String (List (String × FieldType)) :=
  if f.1 ∈ reservedNames then .error ("ConfigError: reserved column " ++ f.1)
  else
    match acc.find? (fun x => decide (x.1 = f.1)) with
    | some x => if x.2 = f.2 then .ok acc else .error ("ConfigError: conflicting type for " ++ f.1)
    | none => .ok (acc ++ [f])

/-- Merge a list of declared fields into the accumulated shared schema. -/
def addFields : List (String × FieldType) → List (String × FieldType) →
    Except String (List (String × FieldType))
  | acc, [] => .ok acc
  | acc, f :: rest =>
    match addField acc f with
    | .error e => .error e
    | .ok acc' => addFields acc' rest

/-- Merge all registered type descriptors into one shared schema. -/
def buildSchema : List (String × FieldType) → List TypeDesc →
    Except String (List (String × FieldType))
  | acc, [] => .ok acc
  | acc, t :: rest =>
    match addFields acc t.fields with
    | .error e => .error e
    | .ok acc' => buildSchema acc' rest

/-- The registry-plus-store state seen by `initialize`. -/
structure SysState where
  graph : PQG
  registered : List TypeDesc
  schema : Option (List (String × FieldType))
deriving DecidableEq, Repr

/-- Modelled from the spec: `initialize()` merges the registered
descriptors into one shared schema (ConfigError on reserved-name or
cross-type conflicts); if the schema is already finalized, an identical
merged schema succeeds with no change (CREATE ... IF NOT EXISTS) while a
different one is a ConfigError.  Stored rows are never touched. -/
def pqgInitialize (st : SysState) : Except String SysState :=
  match buildSchema [] st.registered with
  | .error e => .error e
  | .ok sch =>
    match st.schema with
    | none => .ok ⟨st.graph, st.registered, some sch⟩
    | some old =>
      if old = sch then .ok st else .error "ConfigError: schema already finalized differently"

/-- `initialize` equation: merge succeeded, no schema finalized yet. -/
theorem pqgInitialize_eq_none {st : SysState} {sch : List (String × FieldType)}
    (hb : buildSchema [] st.registered = Except.ok sch) (hs : st.schema = none) :
    pqgInitialize st = Except.ok ⟨st.graph, st.registered, some sch⟩ := by
  unfold pqgInitialize
  rw [hb, hs]

/-- `initialize` equation: merge succeeded, schema already finalized. -/
theorem pqgInitialize_eq_some {st : SysState} {sch old : List (String × FieldType)}
    (hb : buildSchema [] st.registered = Except.ok sch) (hs : st.schema = some old) :
    pqgInitialize st =
      if old = sch then Except.ok st
      else Except.error "ConfigError: schema already finalized differently" := by
  unfold pqgInitialize
  rw [hb, hs]

/-- C8: re-invoking `initialize` on the state left by a successful
`initialize` — same registered type set — succeeds, returns that state
unchanged, and in particular leaves all stored rows and the finalized
schema unchanged. -/
theorem initialize_idempotent (st st' : SysState) (h : pqgInitialize st = Except.ok st') :
    pqgInitialize st' = Except.ok st' ∧ st'.graph = st.graph ∧ st'.registered = st.registered := by
  cases hb : buildSchema [] st.registered with
  | error e =>
    unfold pqgInitialize at h
    rw [hb] at h
    simp at h
  | ok sch =>
    cases hs : st.schema with
    | none =>
      rw [pqgInitialize_eq_none hb hs] at h
      injection h with h'
      rw [← h']
      refine ⟨?_, rfl, rfl⟩
      have hb2 : buildSchema [] (SysState.mk st.graph st.registered (some sch)).registered =
          Except.ok sch := hb
      have hs2 : (SysState.mk st.graph st.registered (some sch)).schema = some sch := rfl
      rw [pqgInitialize_eq_some hb2 hs2]
      simp
    | some old =>
      rw [pqgInitialize_eq_some hb hs] at h
      by_cases heq : old = sch
      · rw [if_pos heq] at h
        injection h with h'
        rw [← h']
        refine ⟨?_, rfl, rfl⟩
        rw [pqgInitialize_eq_some hb hs, if_pos heq]
      · rw [if_neg heq] at h; simp at h

/-- System state used to instantiate the initialize-idempotence
theorem. -/
def stC8 : SysState :=
  ⟨⟨[⟨1, "a", "Person", none, none, [], none⟩], 2⟩,
   [⟨"Person", [("name", FieldType.varcharT), ("age", FieldType.integerT)]⟩], none⟩

/-- The state left by the first successful `initialize` on `stC8`. -/
def stC8' : SysState :=
  ⟨stC8.graph, stC8.registered, some [("name", FieldType.varcharT), ("age", FieldType.integerT)]⟩

/-- Witness: idempotence of `initialize` at a concrete registry. -/
theorem initialize_idempotent_witness :
    pqgInitialize stC8' = Except.ok stC8' ∧ stC8'.graph = stC8.graph ∧
      stC8'.registered = stC8.registered :=
  initialize_idempotent stC8 stC8' (by decide)

/-- All subject pids appearing in any relation triple: the universe the
root-finding iteration can ever draw from. -/
def subjUniv (g : PQG) : Finset String :=
  ((getRelations g none none none).map (fun t => t.1)).toFinset

/-- Subjects of relation triples whose object lies in `S`: one
`getRelations(object=·)` expansion over the members of `S`. -/
def subjectsOf (g : PQG) (S : Finset String) : List String :=
  (getRelations g none none none).filterMap (fun t => if t.2.2 ∈ S then some t.1 else none)

/-- One expansion step of root finding: keep `S` and add every subject
referencing a member of `S`. -/
def refStep (g : PQG) (S : Finset String) : Finset String :=
  S ∪ (subjectsOf g S).toFinset

/-- The root-finding iteration, starting from the target pid. -/
def rootsIter (g : PQG) (x : String) : Nat → Finset String
  | 0 => {x}
  | k + 1 => refStep g (rootsIter g x k)

/-- Enough iterations to reach the fixed point: the size of the reachable
universe. -/
def rootsFuel (g : PQG) (x : String) : Nat := (insert x (subjUniv g)).card

/-- Modelled from the spec: `getRootsForPid(pid)` iterates the
`getRelations(object=·)` expansion to its fixed point, returning every
subject that directly or indirectly references `pid` (the recursive SQL
CTE is not in the repository snapshot; the spec fixes the result as this
fixed point). -/
def getRootsForPid (g : PQG) (x : String) : Finset String :=
  (subjectsOf g (rootsIter g x (rootsFuel g x))).toFinset

/-- One-hop reference: some relation triple has subject `a` and object
`b`. -/
def refersTo (g : PQG) (a b : String) : Prop :=
  ∃ pr, (a, pr, b) ∈ getRelations g none none none

/-- Membership in one expansion step. -/
theorem mem_subjectsOf {g : PQG} {S : Finset String} {a : String} :
    a ∈ subjectsOf g S ↔ ∃ b ∈ S, refersTo g a b := by
  unfold subjectsOf refersTo
  rw [List.mem_filterMap]
  constructor
  · rintro ⟨t, ht, hft⟩
    by_cases hb : t.2.2 ∈ S
    · rw [if_pos hb] at hft
      injection hft with h'
      exact ⟨t.2.2, hb, t.2.1, by rw [← h']; exact ht⟩
    · rw [if_neg hb] at hft
      cases hft
  · rintro ⟨b, hb, pr, hmem⟩
    refine ⟨(a, pr, b), hmem, ?_⟩
    rw [if_pos hb]

/-- Every subject produced by an expansion step lies in the subject
universe. -/
theorem subjectsOf_subset_univ {g : PQG} {S : Finset String} :
    ∀ a ∈ subjectsOf g S, a ∈ subjUniv g := by
  intro a ha
  unfold subjectsOf at ha
  rw [List.mem_filterMap] at ha
  obtain ⟨t, ht, hft⟩ := ha
  have ha' : t.1 = a := by
    by_cases hb : t.2.2 ∈ S
    · rw [if_pos hb] at hft; injection hft
    · rw [if_neg hb] at hft; cases hft
  unfold subjUniv
  rw [List.mem_toFinset]
  exact List.mem_map.mpr ⟨t, ht, ha'⟩

/-- Each iteration step only grows the set. -/
theorem rootsIter_subset_succ (g : PQG) (x : String) (k : Nat) :
    rootsIter g x k ⊆ rootsIter g x (k + 1) :=
  Finset.subset_union_left

/-- The iteration is monotone in the step count. -/
theorem rootsIter_mono (g : PQG) (x : String) {k m : Nat} (h : k ≤ m) :
    rootsIter g x k ⊆ rootsIter g x m := by
  induction m, h using Nat.le_induction with
  | base => exact Finset.Subset.refl _
  | succ m hm ih => exact Finset.Subset.trans ih (rootsIter_subset_succ g x m)

/-- The iteration stays inside the target-plus-subjects universe. -/
theorem rootsIter_subset_univ (g : PQG) (x : String) (k : Nat) :
    rootsIter g x k ⊆ insert x (subjUniv g) := by
  induction k with
  | zero =>
    intro a ha
    rw [Finset.mem_singleton.mp ha]
    exact Finset.mem_insert_self x _
  | succ k ih =>
    intro a ha
    rcases Finset.mem_union.mp ha with ha' | ha'
    · exact ih ha'
    · exact Finset.mem_insert_of_mem (subjectsOf_subset_univ a (List.mem_toFinset.mp ha'))

/-- Once one step fixes the set, every later step agrees with it. -/
theorem rootsIter_fix_stable {g : PQG} {x : String} {k : Nat}
    (hfix : rootsIter g x (k + 1) = rootsIter g x k) :
    ∀ m, k ≤ m → rootsIter g x m = rootsIter g x k := by
  intro m hm
  induction m, hm using Nat.le_induction with
  | base => rfl
  | succ m hm ih =>
    show refStep g (rootsIter g x m) = _
    rw [ih]
    exact hfix

/-- While no step has fixed the set, the cardinality grows every step. -/
theorem rootsIter_card_ge (g : PQG) (x : String) :
    ∀ k, (∀ m, m < k → rootsIter g x (m + 1) ≠ rootsIter g x m) →
      k + 1 ≤ (rootsIter g x k).card := by
  intro k
  induction k with
  | zero =>
    intro _
    simp [rootsIter]
  | succ k ih =>
    intro hne
    have h1 := ih (fun m hm => hne m (Nat.lt_succ_of_lt hm))
    have hlt : rootsIter g x k ⊂ rootsIter g x (k + 1) :=
      lt_of_le_of_ne (rootsIter_subset_succ g x k) (Ne.symm (hne k (Nat.lt_succ_self k)))
    have h2 := Finset.card_lt_card hlt
    omega

/-- After `rootsFuel` steps the iteration has reached its fixed point. -/
theorem rootsIter_fixpoint (g : PQG) (x : String) :
    rootsIter g x (rootsFuel g x + 1) = rootsIter g x (rootsFuel g x) := by
  by_cases hex : ∃ m, m < rootsFuel g x ∧ rootsIter g x (m + 1) = rootsIter g x m
  · obtain ⟨m, hm, hfix⟩ := hex
    have h1 := rootsIter_fix_stable hfix (rootsFuel g x) (le_of_lt hm)
    have h2 := rootsIter_fix_stable hfix (rootsFuel g x + 1) (by omega)
    rw [h1, h2]
  · push_neg at hex
    have hge := rootsIter_card_ge g x (rootsFuel g x) hex
    have hle : (rootsIter g x (rootsFuel g x)).card ≤ rootsFuel g x :=
      Finset.card_le_card (rootsIter_subset_univ g x (rootsFuel g x))
    omega

/-- Soundness: every pid the iteration collects reaches the target along
one-hop references. -/
theorem rootsIter_sound (g : PQG) (x : String) :
    ∀ k, ∀ q ∈ rootsIter g x k, Relation.ReflTransGen (refersTo g) q x := by
  intro k
  induction k with
  | zero =>
    intro q hq
    rw [Finset.mem_singleton.mp hq]
  | succ k ih =>
    intro q hq
    rcases Finset.mem_union.mp hq with hq' | hq'
    · exact ih q hq'
    · obtain ⟨b, hb, hab⟩ := mem_subjectsOf.mp (List.mem_toFinset.mp hq')
      exact Relation.ReflTransGen.head hab (ih b hb)

/-- Completeness: every pid that reaches the target is collected by the
fixed point. -/
theorem reach_mem_fix {g : PQG} {x q : String}
    (h : Relation.ReflTransGen (refersTo g) q x) :
    q ∈ rootsIter g x (rootsFuel g x) := by
  induction h using Relation.ReflTransGen.head_induction_on with
  | refl => exact rootsIter_mono g x (Nat.zero_le _) (Finset.mem_singleton_self x)
  | head hab hbx ih =>
    have hstep : _ ∈ rootsIter g x (rootsFuel g x + 1) :=
      Finset.mem_union_right _ (List.mem_toFinset.mpr (mem_subjectsOf.mpr ⟨_, ih, hab⟩))
    rw [rootsIter_fixpoint g x] at hstep
    exact hstep

/-- C4: `getRootsForPid(x)` contains exactly the subjects that directly
or indirectly reference `x` — the transitive closure of the one-hop
`getRelations` object-expansion relation, not merely the subjects one hop
away. -/
theorem getRoots_transitive_closure (g : PQG) (x q : String) :
    q ∈ getRootsForPid g x ↔ Relation.TransGen (refersTo g) q x := by
  unfold getRootsForPid
  rw [List.mem_toFinset, mem_subjectsOf, Relation.TransGen.head'_iff]
  constructor
  · rintro ⟨b, hbS, hab⟩
    exact ⟨b, hab, rootsIter_sound g x _ b hbS⟩
  · rintro ⟨b, hab, hbx⟩
    exact ⟨b, reach_mem_fix hbx, hab⟩

/-- Edge rows leaving the frontier that have not yet been visited
(visitation is tracked per edge row, by row_id, not per node). -/
def outEdges (g : PQG) (frontier visited : List Nat) : List Row :=
  g.rows.filter (fun r =>
    decide (r.otype = edgeOtype) && !decide (r.row_id ∈ visited) &&
      (match r.s with | some si => decide (si ∈ frontier) | none => false))

/-- Membership in `outEdges`. -/
theorem mem_outEdges {g : PQG} {frontier visited : List Nat} {r : Row} :
    r ∈ outEdges g frontier visited ↔
      r ∈ g.rows ∧ r.otype = edgeOtype ∧ r.row_id ∉ visited ∧
        ∃ si, r.s = some si ∧ si ∈ frontier := by
  unfold outEdges
  rw [List.mem_filter]
  constructor
  · rintro ⟨hmem, hcond⟩
    rw [Bool.and_eq_true, Bool.and_eq_true] at hcond
    obtain ⟨⟨h1, h2⟩, h3⟩ := hcond
    refine ⟨hmem, of_decide_eq_true h1, by simpa using h2, ?_⟩
    cases hrs : r.s with
    | none => rw [hrs] at h3; cases h3
    | some si => exact ⟨si, rfl, of_decide_eq_true (by rw [hrs] at h3; exact h3)⟩
  · rintro ⟨hmem, hot, hnv, si, hsi, hfr⟩
    refine ⟨hmem, ?_⟩
    rw [Bool.and_eq_true, Bool.and_eq_true]
    refine ⟨⟨decide_eq_true hot, ?_⟩, ?_⟩
    · simpa using hnv
    · rw [hsi]
      exact decide_eq_true hfr

/-- Modelled from the spec: the breadth-first worklist loop.  Starting
from a frontier of row ids it visits, level by level, every not yet
visited edge row leaving the frontier, records it with the current
depth, marks it visited and moves the frontier to the edges' objects;
the loop ends when no unvisited edge leaves the frontier.  The
structural fuel argument stands for the loop's iteration count. -/
def bfsAux (g : PQG) : Nat → List Nat → List Nat → Nat → List (Row × Nat)
  | 0, _, _, _ => []
  | fuel + 1, frontier, visited, depth =>
    if outEdges g frontier visited = [] then []
    else
      (outEdges g frontier visited).map (fun r => (r, depth)) ++
        bfsAux g fuel ((outEdges g frontier visited).flatMap Row.o)
          (visited ++ (outEdges g frontier visited).map Row.row_id) (depth + 1)

/-- One unfolding of the worklist loop. -/
theorem bfsAux_succ (g : PQG) (fuel : Nat) (frontier visited : List Nat) (depth : Nat) :
    bfsAux g (fuel + 1) frontier visited depth =
      if outEdges g frontier visited = [] then []
      else
        (outEdges g frontier visited).map (fun r => (r, depth)) ++
          bfsAux g fuel ((outEdges g frontier visited).flatMap Row.o)
            (visited ++ (outEdges g frontier visited).map Row.row_id) (depth + 1) := rfl

/-- Fuel that always suffices: one more than the number of rows (each
level visits at least one new edge row). -/
def bfsFuel (g : PQG) : Nat := g.rows.length + 1

/-- `breadthFirstTraversal(startPid)` run with an explicit iteration
bound: the visited edges fanned out into (subject, predicate, object,
depth) quadruples. -/
def breadthFirstTraversalFuel (g : PQG) (fuel : Nat) (startPid : String) :
    List (String × String × String × Nat) :=
  match pidToRowId g startPid with
  | none => []
  | some si =>
    (bfsAux g fuel [si] [] 0).flatMap
      (fun rd => (edgeTriples g rd.1).map (fun t => (t.1, t.2.1, t.2.2, rd.2)))

/-- `breadthFirstTraversal(startPid)`: the worklist loop run to
completion. -/
def breadthFirstTraversal (g : PQG) (startPid : String) :
    List (String × String × String × Nat) :=
  breadthFirstTraversalFuel g (bfsFuel g) startPid

/-- The row ids of the edge rows the traversal visits, in order. -/
def bfsVisitedEdges (g : PQG) (startPid : String) : List Nat :=
  match pidToRowId g startPid with
  | none => []
  | some si => (bfsAux g (bfsFuel g) [si] [] 0).map (fun rd => rd.1.row_id)

/-- The set of all stored row ids. -/
def allIds (g : PQG) : Finset Nat := (g.rows.map Row.row_id).toFinset

/-- The worklist loop is insensitive to extra fuel once the fuel exceeds
the number of unvisited row ids: the loop genuinely terminates. -/
theorem bfsAux_stable (g : PQG) :
    ∀ d : Nat, ∀ visited frontier : List Nat, ∀ depth fuelA fuelB : Nat,
      (allIds g \ visited.toFinset).card = d → d < fuelA → d < fuelB →
      bfsAux g fuelA frontier visited depth = bfsAux g fuelB frontier visited depth := by
  intro d
  induction d using Nat.strong_induction_on with
  | _ d ih =>
    intro visited frontier depth fuelA fuelB hd hA hB
    cases fuelA with
    | zero => omega
    | succ a =>
      cases fuelB with
      | zero => omega
      | succ b =>
        rw [bfsAux_succ, bfsAux_succ]
        by_cases hes : outEdges g frontier visited = []
        · rw [if_pos hes, if_pos hes]
        · rw [if_neg hes, if_neg hes]
          congr 1
          obtain ⟨e, he⟩ := List.exists_mem_of_ne_nil _ hes
          obtain ⟨hemem, -, henv, -⟩ := mem_outEdges.mp he
          have hsub : allIds g \ (visited ++ (outEdges g frontier visited).map Row.row_id).toFinset ⊆
              allIds g \ visited.toFinset := by
            apply Finset.sdiff_subset_sdiff (Finset.Subset.refl _)
            rw [List.toFinset_append]
            exact Finset.subset_union_left
          have hmem_old : e.row_id ∈ allIds g \ visited.toFinset := by
            rw [Finset.mem_sdiff]
            refine ⟨?_, ?_⟩
            · unfold allIds
              rw [List.mem_toFinset]
              exact List.mem_map_of_mem _ hemem
            · rw [List.mem_toFinset]
              exact henv
          have hmem_new : e.row_id ∉
              allIds g \ (visited ++ (outEdges g frontier visited).map Row.row_id).toFinset := by
            rw [Finset.mem_sdiff]
            rintro ⟨-, hno⟩
            apply hno
            rw [List.toFinset_append, Finset.mem_union]
            right
            rw [List.mem_toFinset]
            exact List.mem_map_of_mem _ he
          have hss : allIds g \ (visited ++ (outEdges g frontier visited).map Row.row_id).toFinset ⊂
              allIds g \ visited.toFinset :=
            (Finset.ssubset_iff_of_subset hsub).mpr ⟨e.row_id, hmem_old, hmem_new⟩
          have hcard := Finset.card_lt_card hss
          exact ih _ (by omega) _ _ (depth + 1) a b rfl (by omega) (by omega)

/-- The row ids of the visited edge rows are duplicate-free and avoid the
initial visited list. -/
theorem bfsAux_nodup (g : PQG) (hids : (g.rows.map Row.row_id).Nodup) :
    ∀ fuel frontier visited depth,
      ((bfsAux g fuel frontier visited depth).map (fun rd => rd.1.row_id)).Nodup ∧
        ∀ j ∈ (bfsAux g fuel frontier visited depth).map (fun rd => rd.1.row_id), j ∉ visited := by
  intro fuel
  induction fuel with
  | zero => intro frontier visited depth; constructor <;> simp [bfsAux]
  | succ fuel ih =>
    intro frontier visited depth
    rw [bfsAux_succ]
    by_cases hes : outEdges g frontier visited = []
    · rw [if_pos hes]
      constructor <;> simp
    · rw [if_neg hes]
      have hmapmap : ((outEdges g frontier visited).map (fun r => (r, depth))).map
          (fun rd : Row × Nat => rd.1.row_id) = (outEdges g frontier visited).map Row.row_id := by
        rw [List.map_map]
        rfl
      rw [List.map_append, hmapmap]
      have hes_nodup : ((outEdges g frontier visited).map Row.row_id).Nodup :=
        List.Nodup.sublist (List.Sublist.map Row.row_id (List.filter_sublist g.rows)) hids
      obtain ⟨ihn, ihv⟩ := ih ((outEdges g frontier visited).flatMap Row.o)
        (visited ++ (outEdges g frontier visited).map Row.row_id) (depth + 1)
      rw [List.nodup_append]
      refine ⟨⟨hes_nodup, ihn, ?_⟩, ?_⟩
      · intro j hj1 hj2
        exact ihv j hj2 (List.mem_append_right _ hj1)
      · intro j hj
        rw [List.mem_append] at hj
        rcases hj with hj | hj
        · obtain ⟨r, hr, rfl⟩ := List.mem_map.mp hj
          exact (mem_outEdges.mp hr).2.2.1
        · intro hv
          exact ihv j hj (List.mem_append_left _ hv)

/-- C5: on every store — cyclic node/edge structures included — the
breadth-first traversal terminates (any fuel beyond the row count yields
the very same output as the canonical run) and visits each edge row at
most once (the visited edge row ids are duplicate-free), because
visitation is tracked per edge. -/
theorem breadthFirst_cycle_safe (g : PQG) (startPid : String) (hinv : Invariant g) :
    (∀ fuel, bfsFuel g ≤ fuel →
      breadthFirstTraversalFuel g fuel startPid = breadthFirstTraversal g startPid) ∧
    (bfsVisitedEdges g startPid).Nodup := by
  constructor
  · intro fuel hfuel
    unfold breadthFirstTraversal breadthFirstTraversalFuel
    cases hs : pidToRowId g startPid with
    | none => rfl
    | some si =>
      have hcard : (allIds g \ ([] : List Nat).toFinset).card ≤ g.rows.length := by
        have h1 := List.toFinset_card_le (g.rows.map Row.row_id)
        rw [List.length_map] at h1
        simpa [allIds] using h1
      have hbf : bfsFuel g = g.rows.length + 1 := rfl
      show (bfsAux g fuel [si] [] 0).flatMap
          (fun rd => (edgeTriples g rd.1).map (fun t => (t.1, t.2.1, t.2.2, rd.2))) =
        (bfsAux g (bfsFuel g) [si] [] 0).flatMap
          (fun rd => (edgeTriples g rd.1).map (fun t => (t.1, t.2.1, t.2.2, rd.2)))
      rw [bfsAux_stable g (allIds g \ ([] : List Nat).toFinset).card [] [si] 0 fuel (bfsFuel g)
        rfl (by omega) (by omega)]
  · unfold bfsVisitedEdges
    cases hs : pidToRowId g startPid with
    | none => exact List.nodup_nil
    | some si => exact (bfsAux_nodup g hinv.2.1 (bfsFuel g) [si] [] 0).1

/-- A store whose edge structure is a two-cycle: a knows b and b knows
a. -/
def gC5 : PQG :=
  ⟨[⟨1, "a", "T", none, none, [], none⟩, ⟨2, "b", "T", none, none, [], none⟩,
    ⟨3, "e1", "_edge_", some 1, some "knows", [2], none⟩,
    ⟨4, "e2", "_edge_", some 2, some "knows", [1], none⟩], 5⟩

/-- Witness: traversal of a concrete cyclic graph stabilizes and visits
each edge at most once. -/
theorem breadthFirst_cycle_safe_witness :
    (∀ fuel, bfsFuel gC5 ≤ fuel →
      breadthFirstTraversalFuel gC5 fuel "a" = breadthFirstTraversal gC5 "a") ∧
    (bfsVisitedEdges gC5 "a").Nodup :=
  breadthFirst_cycle_safe gC5 "a" (by decide)

/-- `find?` skips a first block in which nothing matches. -/
theorem find?_append_none {α : Type} {p : α → Bool} {l₁ l₂ : List α}
    (h : l₁.find? p = none) : (l₁ ++ l₂).find? p = l₂.find? p := by
  rw [List.find?_append, h]
  rfl

/-- No row of the block carries the pid, so the pid lookup fails there. -/
theorem find?_pid_none {rows : List Row} {u : String} (h : u ∉ rows.map Row.pid) :
    rows.find? (fun r => decide (r.pid = u)) = none := by
  rw [List.find?_eq_none]
  intro r hr hpr
  exact h (List.mem_map.mpr ⟨r, hr, of_decide_eq_true hpr⟩)

/-- No row of the block carries the row_id, so the row_id lookup fails
there. -/
theorem find?_id_none {rows : List Row} {j : Nat} (h : ∀ r ∈ rows, r.row_id ≠ j) :
    rows.find? (fun r => decide (r.row_id = j)) = none := by
  rw [List.find?_eq_none]
  intro r hr hpr
  exact h r hr (of_decide_eq_true hpr)

/-- A singleton whose row carries the pid answers the pid lookup. -/
theorem find?_singleton_pid {r : Row} {u : String} (h : r.pid = u) :
    [r].find? (fun q => decide (q.pid = u)) = some r := by
  have hd : decide (r.pid = u) = true := decide_eq_true h
  simp [List.find?_cons, hd]

/-- A singleton whose row carries the row_id answers the row_id lookup. -/
theorem find?_singleton_id {r : Row} {j : Nat} (h : r.row_id = j) :
    [r].find? (fun q => decide (q.row_id = j)) = some r := by
  have hd : decide (r.row_id = j) = true := decide_eq_true h
  simp [List.find?_cons, hd]

/-- Appending rows never breaks an existing pid resolution. -/
theorem pidToRowId_append {g : PQG} {l : List Row} {m : Nat} {q : String} {i : Nat}
    (h : pidToRowId g q = some i) : pidToRowId ⟨g.rows ++ l, m⟩ q = some i := by
  unfold pidToRowId at h ⊢
  cases hf : g.rows.find? (fun r => decide (r.pid = q)) with
  | none => rw [hf] at h; cases h
  | some b =>
    rw [hf] at h
    show ((g.rows ++ l).find? (fun r => decide (r.pid = q))).map Row.row_id = some i
    rw [List.find?_append, hf]
    exact h

/-- All-resolvable object lists resolve to a same-length row_id list. -/
theorem resolveObjects_ok_of_all {g : PQG} :
    ∀ {refs : List String}, (∀ ref ∈ refs, pidToRowId g ref ≠ none) →
      ∃ ois, resolveObjects g refs = Except.ok ois ∧ ois.length = refs.length := by
  intro refs
  induction refs with
  | nil => intro _; exact ⟨[], rfl, rfl⟩
  | cons x rest ih =>
    intro h
    cases hx : pidToRowId g x with
    | none => exact absurd hx (h x (List.mem_cons_self x rest))
    | some i =>
      obtain ⟨is, hok, hlen⟩ := ih (fun a ha => h a (List.mem_cons_of_mem _ ha))
      exact ⟨i :: is, resolveObjects_cons_ok hx hok, by simp [hlen]⟩

/-- `filterMap` of an everywhere-defined partial map keeps the length. -/
theorem length_filterMap_of_isSome {α β : Type} {fn : α → Option β} {l : List α}
    (h : ∀ a ∈ l, (fn a).isSome = true) : (l.filterMap fn).length = l.length := by
  induction l with
  | nil => rfl
  | cons x xs ih =>
    cases hx : fn x with
    | none =>
      exfalso
      have := h x (List.mem_cons_self x xs)
      rw [hx] at this
      cases this
    | some b =>
      rw [List.filterMap_cons, hx]
      simp only [List.length_cons]
      rw [ih (fun a ha => h a (List.mem_cons_of_mem _ ha))]

/-- `flatMap` of an everywhere-empty function is empty. -/
theorem flatMap_eq_nil_of {α β : Type} {fn : α → List β} {l : List α}
    (h : ∀ a ∈ l, fn a = []) : l.flatMap fn = [] := by
  induction l with
  | nil => rfl
  | cons x xs ih =>
    rw [List.flatMap_cons, h x (List.mem_cons_self x xs), List.nil_append]
    exact ih (fun a ha => h a (List.mem_cons_of_mem _ ha))

/-- `edgeTriples` equation: non-edge rows contribute nothing. -/
theorem edgeTriples_not_edge {g : PQG} {r : Row} (hot : ¬r.otype = edgeOtype) :
    edgeTriples g r = [] := by
  unfold edgeTriples
  rw [if_neg hot]

/-- `edgeTriples` equation: rows without a subject contribute nothing. -/
theorem edgeTriples_none_s {g : PQG} {r : Row} (hs : r.s = none) :
    edgeTriples g r = [] := by
  unfold edgeTriples
  by_cases hot : r.otype = edgeOtype
  · rw [if_pos hot, hs]
  · rw [if_neg hot]

/-- `edgeTriples` equation: rows without a predicate contribute
nothing. -/
theorem edgeTriples_none_p {g : PQG} {r : Row} (hp : r.p = none) :
    edgeTriples g r = [] := by
  unfold edgeTriples
  by_cases hot : r.otype = edgeOtype
  · rw [if_pos hot, hp]
    cases r.s <;> rfl
  · rw [if_neg hot]

/-- `edgeTriples` equation: an unresolvable subject contributes
nothing. -/
theorem edgeTriples_subj_missing {g : PQG} {r : Row} {si : Nat}
    (hot : r.otype = edgeOtype) (hs : r.s = some si) {pv : String} (hp : r.p = some pv)
    (hsp : rowIdToPid g si = none) : edgeTriples g r = [] := by
  unfold edgeTriples
  rw [if_pos hot, hs, hp]
  simp only [hsp]

/-- `edgeTriples` equation: the fan-out of a resolvable edge row. -/
theorem edgeTriples_eq {g : PQG} {r : Row} {si : Nat} {pv spid : String}
    (hot : r.otype = edgeOtype) (hs : r.s = some si) (hp : r.p = some pv)
    (hsp : rowIdToPid g si = some spid) :
    edgeTriples g r =
      r.o.filterMap (fun oi => (rowIdToPid g oi).map (fun opid => (spid, pv, opid))) := by
  unfold edgeTriples
  rw [if_pos hot, hs, hp]
  simp only [hsp]

/-- Every triple's subject comes from resolving the row's stored subject
row_id. -/
theorem edgeTriples_subject {g : PQG} {r : Row} {t : String × String × String}
    (ht : t ∈ edgeTriples g r) :
    ∃ si, r.s = some si ∧ rowIdToPid g si = some t.1 := by
  by_cases hot : r.otype = edgeOtype
  · cases hrs : r.s with
    | none => rw [edgeTriples_none_s hrs] at ht; cases ht
    | some si =>
      cases hrp : r.p with
      | none => rw [edgeTriples_none_p hrp] at ht; cases ht
      | some pv =>
        cases hrip : rowIdToPid g si with
        | none => rw [edgeTriples_subj_missing hot hrs hrp hrip] at ht; cases ht
        | some spid =>
          rw [edgeTriples_eq hot hrs hrp hrip] at ht
          obtain ⟨oi, _, hmeq⟩ := List.mem_filterMap.mp ht
          cases hoid : rowIdToPid g oi with
          | none => rw [hoid] at hmeq; cases hmeq
          | some opid =>
            rw [hoid] at hmeq
            injection hmeq with he'
            refine ⟨si, rfl, ?_⟩
            rw [← he']
            exact hrip
  · rw [edgeTriples_not_edge hot] at ht
    cases ht

/-- `addNode` success equation. -/
theorem addNode_eq_ok {g : PQG} {obj : Obj} {g2 : PQG}
    (hae : addEdges (assignedPid g obj)
      (upsertRow g (assignedPid g obj) (mkNodeRow (assignedPid g obj) obj.otype))
      obj.refFields = Except.ok g2) :
    addNode g obj = Except.ok (g2, assignedPid g obj) := by
  unfold addNode
  rw [hae]

/-- C3: decomposing an object whose single reference field holds k
entity references adds exactly two rows — the node row and ONE
synthesized edge row (not k edge rows) — where the one edge row with the
object as subject and the field name as predicate has an object list of
exactly k elements, and `getRelations` for that (subject, predicate)
pair fans the single edge out into exactly k triples. -/
theorem list_field_single_edge (g : PQG) (op ot f : String) (refs : List String)
    (hinv : Invariant g)
    (hop : op ∉ g.rows.map Row.pid)
    (hep : edgePid op f refs none ∉ g.rows.map Row.pid)
    (hepop : ¬edgePid op f refs none = op)
    (hrefs : ∀ ref ∈ refs, pidToRowId g ref ≠ none) :
    ∃ g', addNode g ⟨some op, ot, [(f, refs)]⟩ = Except.ok (g', op) ∧
      g'.rows.length = g.rows.length + 2 ∧
      g'.rows.countP (fun r => decide (r.otype = edgeOtype) &&
        decide (r.s = some g.nextRowId) && decide (r.p = some f)) = 1 ∧
      (∀ r ∈ g'.rows, r.otype = edgeOtype → r.s = some g.nextRowId → r.p = some f →
        r.o.length = refs.length) ∧
      (getRelations g' (some op) (some f) none).length = refs.length := by
  obtain ⟨hpnd, hind, hlt, href⟩ := hinv
  obtain ⟨ois, hressg, hoislen⟩ := resolveObjects_ok_of_all hrefs
  have hfop : g.rows.find? (fun r => decide (r.pid = op)) = none := find?_pid_none hop
  have hfep : g.rows.find? (fun r => decide (r.pid = edgePid op f refs none)) = none :=
    find?_pid_none hep
  set nd : Row := mkNodeRow op ot g.nextRowId with hnd
  set ed : Row := mkEdgeRow (edgePid op f refs none) g.nextRowId f ois none (g.nextRowId + 1)
    with hed
  set g1 : PQG := ⟨g.rows ++ [nd], g.nextRowId + 1⟩ with hg1
  set gF : PQG := ⟨(g.rows ++ [nd]) ++ [ed], g.nextRowId + 2⟩ with hgF
  have hrows1 : g1.rows = g.rows ++ [nd] := by rw [hg1]
  have hrowsF : gF.rows = (g.rows ++ [nd]) ++ [ed] := by rw [hgF]
  have hup1 : upsertRow g op (mkNodeRow op ot) = g1 := by
    rw [hg1, hnd]
    exact upsertRow_insert hfop
  have hsubj : pidToRowId g1 op = some g.nextRowId := by
    unfold pidToRowId
    rw [hrows1]
    show ((g.rows ++ [nd]).find? (fun r => decide (r.pid = op))).map Row.row_id =
      some g.nextRowId
    rw [find?_append_none hfop, hnd,
      find?_singleton_pid (show (mkNodeRow op ot g.nextRowId).pid = op from rfl)]
    rfl
  have hpres1 : ∀ q i, pidToRowId g q = some i → pidToRowId g1 q = some i := by
    intro q i hq
    rw [hg1]
    exact pidToRowId_append hq
  have hres1 : resolveObjects g1 refs = Except.ok ois := resolveObjects_stable hpres1 hressg
  have hfe1 : g1.rows.find? (fun r => decide (r.pid = edgePid op f refs none)) = none := by
    rw [hrows1]
    rw [find?_append_none hfep, hnd]
    rw [List.find?_eq_none]
    intro a ha hpa
    rw [List.mem_singleton.mp ha] at hpa
    exact hepop ((of_decide_eq_true hpa).symm)
  have hupE : upsertRow g1 (edgePid op f refs none)
      (mkEdgeRow (edgePid op f refs none) g.nextRowId f ois none) = gF := by
    rw [upsertRow_insert hfe1, hgF, hg1, hed]
  have haddE : addEdge g1 op f refs none = Except.ok gF := by
    rw [addEdge_ok_eq hsubj hres1, hupE]
  have haddE2 : addEdge g1 op ((f, refs)).1 ((f, refs)).2 none = Except.ok gF := haddE
  have haddEs : addEdges op g1 [(f, refs)] = Except.ok gF := by
    rw [addEdges_cons_ok haddE2]
    rfl
  have haddEs2 : addEdges (assignedPid g ⟨some op, ot, [(f, refs)]⟩)
      (upsertRow g (assignedPid g ⟨some op, ot, [(f, refs)]⟩)
        (mkNodeRow (assignedPid g ⟨some op, ot, [(f, refs)]⟩)
          (Obj.otype ⟨some op, ot, [(f, refs)]⟩)))
      (Obj.refFields ⟨some op, ot, [(f, refs)]⟩) = Except.ok gF := by
    show addEdges op (upsertRow g op (mkNodeRow op ot)) [(f, refs)] = Except.ok gF
    rw [hup1]
    exact haddEs
  have haddN : addNode g ⟨some op, ot, [(f, refs)]⟩ = Except.ok (gF, op) := addNode_eq_ok haddEs2
  refine ⟨gF, haddN, ?_, ?_, ?_, ?_⟩
  · rw [hrowsF]
    simp only [List.length_append, List.length_cons, List.length_nil]
  · have hpredg : ∀ r ∈ g.rows, ¬((fun r => decide (r.otype = edgeOtype) &&
        decide (r.s = some g.nextRowId) && decide (r.p = some f)) r = true) := by
      intro r hr hcond
      rw [Bool.and_eq_true, Bool.and_eq_true] at hcond
      have hs' : r.s = some g.nextRowId := of_decide_eq_true hcond.1.2
      have hmemref : g.nextRowId ∈ rowRefs r := by simp [rowRefs, hs']
      exact absurd (href r hr _ hmemref) (lt_irrefl _)
    have hprednd : List.filter (fun r => decide (r.otype = edgeOtype) &&
        decide (r.s = some g.nextRowId) && decide (r.p = some f)) [nd] = [] := by
      rw [hnd]
      have h2 : decide ((mkNodeRow op ot g.nextRowId).s = some g.nextRowId) = false :=
        decide_eq_false (fun h => Option.noConfusion h)
      simp [List.filter_cons, h2]
    have hpreded : List.filter (fun r => decide (r.otype = edgeOtype) &&
        decide (r.s = some g.nextRowId) && decide (r.p = some f)) [ed] = [ed] := by
      rw [hed]
      have h1 : decide ((mkEdgeRow (edgePid op f refs none) g.nextRowId f ois none
          (g.nextRowId + 1)).otype = edgeOtype) = true := decide_eq_true rfl
      have h2 : decide ((mkEdgeRow (edgePid op f refs none) g.nextRowId f ois none
          (g.nextRowId + 1)).s = some g.nextRowId) = true := decide_eq_true rfl
      have h3 : decide ((mkEdgeRow (edgePid op f refs none) g.nextRowId f ois none
          (g.nextRowId + 1)).p = some f) = true := decide_eq_true rfl
      simp [List.filter_cons, h1, h2, h3]
    rw [hrowsF, List.countP_eq_length_filter, List.filter_append, List.filter_append,
      List.filter_eq_nil_iff.mpr hpredg, hprednd, hpreded]
    rfl
  · intro r hr h1 h2 h3
    rw [hrowsF] at hr
    rcases List.mem_append.mp hr with hr2 | hr2
    · rcases List.mem_append.mp hr2 with hr3 | hr3
      · exfalso
        have hmemref : g.nextRowId ∈ rowRefs r := by simp [rowRefs, h2]
        exact absurd (href r hr3 _ hmemref) (lt_irrefl _)
      · exfalso
        rw [List.mem_singleton.mp hr3, hnd] at h2
        exact Option.noConfusion h2
    · rw [List.mem_singleton.mp hr2, hed]
      exact hoislen
  · have hgid : g.rows.find? (fun r => decide (r.row_id = g.nextRowId)) = none :=
      find?_id_none (fun r hr => Nat.ne_of_lt (hlt r hr))
    have hrowback : rowIdToPid gF g.nextRowId = some op := by
      unfold rowIdToPid
      rw [hrowsF]
      show (((g.rows ++ [nd]) ++ [ed]).find?
        (fun r => decide (r.row_id = g.nextRowId))).map Row.pid = some op
      rw [List.find?_append, find?_append_none hgid, hnd,
        find?_singleton_id (show (mkNodeRow op ot g.nextRowId).row_id = g.nextRowId from rfl)]
      rfl
    have hobjback : ∀ oi ∈ ois, (rowIdToPid gF oi).isSome = true := by
      intro oi hoi
      obtain ⟨ref, -, hrefoi⟩ := forall2_mem_right (resolveObjects_spec hressg) oi hoi
      obtain ⟨rr, hrmem, -, hrid⟩ := pidToRowId_inv hrefoi
      have hmemF : rr ∈ gF.rows := by
        rw [hrowsF]
        exact List.mem_append_left _ (List.mem_append_left _ hrmem)
      obtain ⟨b, hb⟩ := find_exists_of_mem (p := fun r => decide (r.row_id = oi)) hmemF
        (decide_eq_true hrid)
      unfold rowIdToPid
      rw [hb]
      rfl
    have hrowsg : ∀ r ∈ g.rows, (edgeTriples gF r).filter
        (fun t => matchesF (some op) t.1 && matchesF (some f) t.2.1 &&
          matchesF none t.2.2) = [] := by
      intro r hr
      rw [List.filter_eq_nil_iff]
      intro t ht hpt
      obtain ⟨si', hs', hback⟩ := edgeTriples_subject ht
      have hsilt : si' < g.nextRowId := href r hr si' (by simp [rowRefs, hs'])
      obtain ⟨rw', hrwmem, hrwpid, hrwid⟩ := rowIdToPid_inv hback
      rw [hrowsF] at hrwmem
      have hrwg : rw' ∈ g.rows := by
        rcases List.mem_append.mp hrwmem with h2 | h2
        · rcases List.mem_append.mp h2 with h3 | h3
          · exact h3
          · exfalso
            rw [List.mem_singleton.mp h3, hnd] at hrwid
            have : g.nextRowId = si' := hrwid
            omega
        · exfalso
          rw [List.mem_singleton.mp h2, hed] at hrwid
          have : g.nextRowId + 1 = si' := hrwid
          omega
      have hmempid : t.1 ∈ g.rows.map Row.pid := List.mem_map.mpr ⟨rw', hrwg, hrwpid⟩
      rw [Bool.and_eq_true, Bool.and_eq_true] at hpt
      have hopt : op = t.1 := of_decide_eq_true hpt.1.1
      exact hop (hopt ▸ hmempid)
    have hrownd : (edgeTriples gF nd).filter
        (fun t => matchesF (some op) t.1 && matchesF (some f) t.2.1 &&
          matchesF none t.2.2) = [] := by
      rw [hnd, edgeTriples_none_s rfl]
      rfl
    have hrowed_triples : edgeTriples gF ed =
        ois.filterMap (fun oi => (rowIdToPid gF oi).map (fun opid => (op, f, opid))) := by
      rw [hed]
      exact edgeTriples_eq rfl rfl rfl hrowback
    have hrowed : (edgeTriples gF ed).filter
        (fun t => matchesF (some op) t.1 && matchesF (some f) t.2.1 &&
          matchesF none t.2.2) = edgeTriples gF ed := by
      rw [List.filter_eq_self]
      intro t ht
      rw [hrowed_triples] at ht
      obtain ⟨oi, hoi, hmeq⟩ := List.mem_filterMap.mp ht
      cases hx : rowIdToPid gF oi with
      | none => rw [hx] at hmeq; cases hmeq
      | some opid =>
        rw [hx] at hmeq
        injection hmeq with he'
        have h1 : t.1 = op := by rw [← he']
        have h2 : t.2.1 = f := by rw [← he']
        rw [Bool.and_eq_true, Bool.and_eq_true]
        refine ⟨⟨?_, ?_⟩, ?_⟩
        · rw [h1]
          exact decide_eq_true rfl
        · rw [h2]
          exact decide_eq_true rfl
        · rfl
    have hsome : ∀ oi ∈ ois,
        ((rowIdToPid gF oi).map (fun opid => (op, f, opid))).isSome = true := by
      intro oi hoi
      have hb := hobjback oi hoi
      cases hx : rowIdToPid gF oi with
      | none => rw [hx] at hb; cases hb
      | some opid => rfl
    have hlened : (edgeTriples gF ed).length = refs.length := by
      rw [hrowed_triples, length_filterMap_of_isSome hsome, hoislen]
    unfold getRelations
    rw [hrowsF, List.flatMap_append, List.flatMap_append, flatMap_eq_nil_of hrowsg]
    simp [List.flatMap_cons, hrownd, hrowed, hlened]

/-- Store used to instantiate the list-field decomposition theorem. -/
def gC3 : PQG :=
  ⟨[⟨1, "b", "Person", none, none, [], none⟩, ⟨2, "c", "Person", none, none, [], none⟩], 3⟩

/-- Witness: decomposing an object whose `team` field references two
existing nodes on a concrete store. -/
theorem list_field_single_edge_witness :
    ∃ g', addNode gC3 ⟨some "proj", "Project", [("team", ["b", "c"])]⟩ =
        Except.ok (g', "proj") ∧
      g'.rows.length = gC3.rows.length + 2 ∧
      g'.rows.countP (fun r => decide (r.otype = edgeOtype) &&
        decide (r.s = some gC3.nextRowId) && decide (r.p = some "team")) = 1 ∧
      (∀ r ∈ g'.rows, r.otype = edgeOtype → r.s = some gC3.nextRowId → r.p = some "team" →
        r.o.length = (["b", "c"] : List String).length) ∧
      (getRelations g' (some "proj") (some "team") none).length =
        (["b", "c"] : List String).length :=
  list_field_single_edge gC3 "proj" "Project" "team" ["b", "c"]
    (by decide) (by decide) (by decide) (by decide) (by decide)
